import Mathlib

set_option maxHeartbeats 1000000

/-!
Verification of the lazy substitution enumerator (`src/main.rs`).

The Rust program enumerates all expressions obtainable from template
S-expressions by substituting a hole atom with values drawn from peg sets.
This file is a shallow embedding of that program:

* `Sexp` embeds `enum Sexp { Atom(String), List(Vec<Sexp>) }`.
* `Sexp.replace_first` embeds `Sexp::replace_first` (which clones the
  receiver, locates the first atom equal to the needle in pre-order
  left-to-right order via `Sexp::first`, and overwrites it).
* `substRun` embeds repeatedly calling `SexpSubstIter::next` until the
  iterator reports `None`, collecting every yielded expression.  The Rust
  `next` is recursive and need not terminate, so `substRun` carries explicit
  fuel, spending one unit per recursive `next` invocation; `none` means the
  fuel ran out before the iterator finished.  The `spawn_iterator` closure
  `|| pegs.clone().into_iter()` always re-enumerates the same pure value, so
  a frame's fresh iterator is modelled by the fixed list `pegs`.
* `Workload` embeds `enum Workload { Set(Vec<Sexp>), Plug(..) }` and
  `Workload.enum` embeds draining `Workload::into_iter`, again with fuel.
-/

inductive Sexp where
  | atom : String → Sexp
  | list : List Sexp → Sexp

mutual
/-- Embeds `Sexp::replace_first`: replace the first (pre-order,
left-to-right) atom equal to `needle` with `new`; `none` when `needle`
does not occur. -/
def Sexp.replace_first (needle : String) (new : Sexp) : Sexp → Option Sexp
  | Sexp.atom a => if a = needle then some new else none
  | Sexp.list cs => (Sexp.replaceFirstList needle new cs).map Sexp.list

/-- The traversal of `Sexp::first` over the children of a `List` node:
the first child containing the needle is rewritten, the others are kept. -/
def Sexp.replaceFirstList (needle : String) (new : Sexp) : List Sexp → Option (List Sexp)
  | [] => none
  | c :: cs =>
    match Sexp.replace_first needle new c with
    | some c2 => some (c2 :: cs)
    | none => (Sexp.replaceFirstList needle new cs).map (fun cs2 => c :: cs2)
end

mutual
/-- Number of atoms equal to `needle` in an expression. -/
def Sexp.occ (needle : String) : Sexp → Nat
  | Sexp.atom a => if a = needle then 1 else 0
  | Sexp.list cs => Sexp.occList needle cs

/-- Number of atoms equal to `needle` across a list of expressions. -/
def Sexp.occList (needle : String) : List Sexp → Nat
  | [] => 0
  | c :: cs => Sexp.occ needle c + Sexp.occList needle cs
end

/-- Embeds draining `SexpSubstIter` (its `next` method called until `None`).
A stack frame is `(template expression, remaining items of its iterator)`,
exactly the `(Sexp, I)` pairs of the Rust `VecDeque`.  One unit of fuel is
spent per recursive `next` call; `some L` means the iterator finished and
yielded exactly `L`, `none` means the fuel ran out first. -/
def substRun (needle : String) (pegs : List Sexp) :
    Nat → List (Sexp × List Sexp) → Option (List Sexp)
  | 0, _ => none
  | _ + 1, [] => some []
  | n + 1, (_, []) :: rest => substRun needle pegs n rest
  | n + 1, (e, v :: it) :: rest =>
    match Sexp.replace_first needle v e with
    | some e2 => substRun needle pegs n ((e2, pegs) :: (e, it) :: rest)
    | none => (substRun needle pegs n rest).map (fun L => e :: L)

/-- Embeds `SexpSubstIter::new(e, needle, spawn)` followed by draining the
iterator: the stack starts with the single frame `(e, spawn())`. -/
def substIter (needle : String) (pegs : List Sexp) (fuel : Nat) (e : Sexp) :
    Option (List Sexp) :=
  substRun needle pegs fuel [(e, pegs)]

/-- Embeds `enum Workload { Set(Vec<Sexp>), Plug(Box<Workload>, String, Box<Workload>) }`. -/
inductive Workload where
  | Set : List Sexp → Workload
  | Plug : Workload → String → Workload → Workload

/-- Embeds the builder method `Workload::plug`. -/
def Workload.plug (w : Workload) (hole : String) (pegs : Workload) : Workload :=
  Workload.Plug w hole pegs

/-- Concatenation of a list of lists (the `.flatten()` on the iterator of
per-source-expression iterators in `Workload::into_iter`). -/
def joinL : List (List Sexp) → List Sexp
  | [] => []
  | l :: ls => l ++ joinL ls

/-- Run `f` over a list, succeeding only when every element succeeds. -/
def mapOpt (f : Sexp → Option (List Sexp)) : List Sexp → Option (List (List Sexp))
  | [] => some []
  | a :: l =>
    match f a with
    | some b => (mapOpt f l).map (fun bs => b :: bs)
    | none => none

/-- Embeds draining `Workload::into_iter()`.  `Set(v)` enumerates to `v`.
`Plug(w, hole, pegs)` maps every expression of `w`'s enumeration to a fresh
`SexpSubstIter` seeded with it and flattens, exactly as `into_iter` does;
each sub-iterator spawns fresh enumerations of the pure value `pegs`, all
equal to `pegs`'s own enumeration.  Fuel bounds the recursion; `none` means
the fuel ran out before the enumeration finished. -/
def Workload.enum : Nat → Workload → Option (List Sexp)
  | _, Workload.Set v => some v
  | 0, Workload.Plug _ _ _ => none
  | n + 1, Workload.Plug w hole pegs =>
    match Workload.enum n w, Workload.enum n pegs with
    | some src, some ps => (mapOpt (fun e => substIter hole ps n e) src).map joinL
    | _, _ => none

/-- The enumeration of `w` completes and produces exactly the sequence `L`. -/
def Workload.Yields (w : Workload) (L : List Sexp) : Prop :=
  ∃ n, Workload.enum n w = some L

/-!
Specification-side definitions.

`getAt`, `setAt` and `atomPaths` describe positions in an expression tree;
they are used to state, independently of `replace_first`'s own recursion,
what "replace the first pre-order occurrence" means.  `tuples` and
`substSeq` describe the expected Cartesian-product output of a single-source
`Plug`, and `expandK`, `frameDen`, `stackDen` are the denotations of the
enumerator's frames and stacks used in its correctness proof.
-/

/-- Subterm of an expression at a path of child indices. -/
def Sexp.getAt : Sexp → List Nat → Option Sexp
  | e, [] => some e
  | Sexp.atom _, _ :: _ => none
  | Sexp.list cs, i :: p =>
    match cs[i]? with
    | some c => Sexp.getAt c p
    | none => none

/-- Replace the subterm at a path, leaving every other node unchanged;
`none` when the path does not denote a subterm. -/
def Sexp.setAt : Sexp → List Nat → Sexp → Option Sexp
  | _, [], v => some v
  | Sexp.atom _, _ :: _, _ => none
  | Sexp.list cs, i :: p, v =>
    match cs[i]? with
    | some c => (Sexp.setAt c p v).map (fun c2 => Sexp.list (cs.set i c2))
    | none => none

/-- Subterm of a list of expressions at a path (the head indexes the list). -/
def getAtL (cs : List Sexp) : List Nat → Option Sexp
  | [] => none
  | i :: p =>
    match cs[i]? with
    | some c => Sexp.getAt c p
    | none => none

/-- Replace the subterm of a list of expressions at a path. -/
def setAtL (cs : List Sexp) (v : Sexp) : List Nat → Option (List Sexp)
  | [] => none
  | i :: p =>
    match cs[i]? with
    | some c => (Sexp.setAt c p v).map (fun c2 => cs.set i c2)
    | none => none

/-- Shift the leading child index of a path by one. -/
def bumpHead : List Nat → List Nat
  | [] => []
  | i :: p => (i + 1) :: p

mutual
/-- Paths to all atoms of an expression, in pre-order left-to-right order. -/
def Sexp.atomPaths : Sexp → List (List Nat)
  | Sexp.atom _ => [[]]
  | Sexp.list cs => atomPathsL cs

/-- Paths to all atoms across a list of expressions, in order. -/
def atomPathsL : List Sexp → List (List Nat)
  | [] => []
  | c :: cs =>
    (Sexp.atomPaths c).map (fun p => 0 :: p) ++ (atomPathsL cs).map bumpHead
end

/-- Concatenation of the images of `f`, in order. -/
def flatMapL {α β : Type} (f : α → List β) : List α → List β
  | [] => []
  | a :: l => f a ++ flatMapL f l

/-- All length-`k` choice tuples over `ps`, ordered lexicographically with
the first component as the major key and `ps`'s order as the minor key. -/
def tuples : Nat → List Sexp → List (List Sexp)
  | 0, _ => [[]]
  | k + 1, ps => flatMapL (fun p => (tuples k ps).map (fun cs => p :: cs)) ps

/-- Substitute a tuple of choices for successive leftmost occurrences of the
needle: the first choice replaces the leftmost occurrence, the second the
leftmost occurrence of the result, and so on. -/
def substSeq (needle : String) : Sexp → List Sexp → Option Sexp
  | e, [] => some e
  | e, c :: cs =>
    match Sexp.replace_first needle c e with
    | some e2 => substSeq needle e2 cs
    | none => none

/-- Denotation of one fresh enumerator frame whose expression has `k`
occurrences of the needle: the sequence it will yield. -/
def expandK (needle : String) (pegs : List Sexp) : Nat → Sexp → List Sexp
  | 0, e => if pegs.isEmpty then [] else [e]
  | k + 1, e =>
    flatMapL (fun v =>
      match Sexp.replace_first needle v e with
      | some e2 => expandK needle pegs k e2
      | none => []) pegs

/-- Denotation of a frame with a partially consumed iterator `it`. -/
def frameDen (needle : String) (pegs : List Sexp) (e : Sexp) (it : List Sexp) :
    List Sexp :=
  match Sexp.occ needle e with
  | 0 => if it.isEmpty then [] else [e]
  | k + 1 =>
    flatMapL (fun v =>
      match Sexp.replace_first needle v e with
      | some e2 => expandK needle pegs k e2
      | none => []) it

/-- Denotation of a whole stack: concatenation of its frames' denotations. -/
def stackDen (needle : String) (pegs : List Sexp) :
    List (Sexp × List Sexp) → List Sexp
  | [] => []
  | (e, it) :: rest => frameDen needle pegs e it ++ stackDen needle pegs rest

/-- Termination measure of one frame. -/
def muFrame (needle : String) (pegs : List Sexp) (fr : Sexp × List Sexp) : Nat :=
  (fr.2.length + 1) * (pegs.length + 2) ^ Sexp.occ needle fr.1

/-- Termination measure of a stack. -/
def muStack (needle : String) (pegs : List Sexp) :
    List (Sexp × List Sexp) → Nat
  | [] => 0
  | fr :: rest => muFrame needle pegs fr + muStack needle pegs rest

/-- Every value still to be drawn by any frame's iterator is free of the
needle.  This holds throughout a run whenever the pegs are needle-free. -/
def goodStack (needle : String) (stack : List (Sexp × List Sexp)) : Prop :=
  ∀ fr ∈ stack, ∀ x ∈ fr.2, Sexp.occ needle x = 0

/-- A plan is safe when, at every `Plug` node, no peg its pegs plan
enumerates contains that node's hole. -/
inductive SafeW : Workload → Prop
  | set (v : List Sexp) : SafeW (Workload.Set v)
  | plug (w p : Workload) (hole : String) :
      SafeW w → SafeW p →
      (∀ L, Workload.Yields p L → ∀ x ∈ L, Sexp.occ hole x = 0) →
      SafeW (Workload.Plug w hole p)

/-!
Basic lemmas about `replace_first` and `occ`.
-/

mutual
theorem replace_none_iff (needle : String) (v : Sexp) :
    (e : Sexp) → (Sexp.replace_first needle v e = none ↔ Sexp.occ needle e = 0)
  | Sexp.atom a => by
    simp only [Sexp.replace_first, Sexp.occ]
    by_cases h : a = needle <;> simp [h]
  | Sexp.list cs => by
    have hl := replaceList_none_iff needle v cs
    simpa only [Sexp.replace_first, Sexp.occ, Option.map_eq_none'] using hl

theorem replaceList_none_iff (needle : String) (v : Sexp) :
    (cs : List Sexp) →
      (Sexp.replaceFirstList needle v cs = none ↔ Sexp.occList needle cs = 0)
  | [] => by simp [Sexp.replaceFirstList, Sexp.occList]
  | c :: cs => by
    have hc := replace_none_iff needle v c
    have hcs := replaceList_none_iff needle v cs
    simp only [Sexp.replaceFirstList, Sexp.occList]
    cases h : Sexp.replace_first needle v c with
    | some c2 =>
      have : Sexp.occ needle c ≠ 0 := fun h0 => by
        rw [← hc] at h0; rw [h0] at h; exact Option.noConfusion h
      simp only [reduceCtorEq, false_iff]
      omega
    | none =>
      have hc0 : Sexp.occ needle c = 0 := hc.mp h
      simp only [Option.map_eq_none', hcs, hc0]
      omega
end

mutual
theorem occ_replace (needle : String) (v : Sexp) :
    (e : Sexp) → ∀ e2, Sexp.replace_first needle v e = some e2 →
      Sexp.occ needle e2 + 1 = Sexp.occ needle e + Sexp.occ needle v
  | Sexp.atom a => by
    intro e2 h
    simp only [Sexp.replace_first] at h
    by_cases ha : a = needle
    · simp only [ha, if_pos rfl] at h
      cases h
      simp [Sexp.occ, ha]
      omega
    · simp [ha] at h
  | Sexp.list cs => by
    intro e2 h
    simp only [Sexp.replace_first, Option.map_eq_some'] at h
    obtain ⟨cs2, hcs2, rfl⟩ := h
    simpa only [Sexp.occ] using occList_replace needle v cs cs2 hcs2

theorem occList_replace (needle : String) (v : Sexp) :
    (cs : List Sexp) → ∀ cs2, Sexp.replaceFirstList needle v cs = some cs2 →
      Sexp.occList needle cs2 + 1 = Sexp.occList needle cs + Sexp.occ needle v
  | [] => by intro cs2 h; simp [Sexp.replaceFirstList] at h
  | c :: cs => by
    intro cs2 h
    simp only [Sexp.replaceFirstList] at h
    cases hr : Sexp.replace_first needle v c with
    | some c2 =>
      rw [hr] at h
      cases h
      have := occ_replace needle v c c2 hr
      simp only [Sexp.occList]
      omega
    | none =>
      rw [hr] at h
      simp only [Option.map_eq_some'] at h
      obtain ⟨cs0, hcs0, rfl⟩ := h
      have := occList_replace needle v cs cs0 hcs0
      simp only [Sexp.occList]
      omega
end

theorem replace_isSome (needle : String) (v e : Sexp)
    (h : Sexp.occ needle e ≠ 0) : ∃ e2, Sexp.replace_first needle v e = some e2 := by
  cases hr : Sexp.replace_first needle v e with
  | some e2 => exact ⟨e2, rfl⟩
  | none => exact absurd ((replace_none_iff needle v e).mp hr) h

/-!
Fuel monotonicity: once an enumeration completes within some fuel, any
larger fuel completes it with the same output.
-/

theorem enum_Set (n : Nat) (v : List Sexp) :
    Workload.enum n (Workload.Set v) = some v := by
  cases n <;> rfl

theorem substRun_mono (needle : String) (pegs : List Sexp) :
    ∀ n m stack L, n ≤ m → substRun needle pegs n stack = some L →
      substRun needle pegs m stack = some L := by
  intro n
  induction n with
  | zero => intro m stack L _ h; simp [substRun] at h
  | succ n ih =>
    intro m stack L hnm h
    obtain ⟨m, rfl⟩ : ∃ m2, m = m2 + 1 := ⟨m - 1, by omega⟩
    cases stack with
    | nil => simpa [substRun] using h
    | cons fr rest =>
      obtain ⟨e, it⟩ := fr
      cases it with
      | nil =>
        simp only [substRun] at h ⊢
        exact ih m rest L (by omega) h
      | cons v it =>
        simp only [substRun] at h ⊢
        cases hr : Sexp.replace_first needle v e with
        | some e2 =>
          rw [hr] at h
          exact ih m _ L (by omega) h
        | none =>
          rw [hr] at h
          replace h : (substRun needle pegs n rest).map (fun L => e :: L) = some L := h
          show (substRun needle pegs m rest).map (fun L => e :: L) = some L
          simp only [Option.map_eq_some'] at h ⊢
          obtain ⟨L0, h0, rfl⟩ := h
          exact ⟨L0, ih m rest L0 (by omega) h0, rfl⟩

theorem mapOpt_mono (f g : Sexp → Option (List Sexp))
    (hfg : ∀ a b, f a = some b → g a = some b) :
    ∀ l bs, mapOpt f l = some bs → mapOpt g l = some bs := by
  intro l
  induction l with
  | nil => intro bs h; exact h
  | cons a l ih =>
    intro bs h
    simp only [mapOpt] at h ⊢
    cases hfa : f a with
    | some b =>
      rw [hfa] at h
      simp only [Option.map_eq_some'] at h
      obtain ⟨bs0, hbs0, rfl⟩ := h
      rw [hfg a b hfa]
      simp only [Option.map_eq_some']
      exact ⟨bs0, ih bs0 hbs0, rfl⟩
    | none => rw [hfa] at h; exact Option.noConfusion h

theorem enum_mono :
    ∀ n m w L, n ≤ m → Workload.enum n w = some L → Workload.enum m w = some L := by
  intro n
  induction n with
  | zero =>
    intro m w L _ h
    cases w with
    | Set v => rw [enum_Set] at h ⊢; exact h
    | Plug w hole pegs => simp [Workload.enum] at h
  | succ n ih =>
    intro m w L hnm h
    cases w with
    | Set v => rw [enum_Set] at h ⊢; exact h
    | Plug w hole pegs =>
      obtain ⟨m, rfl⟩ : ∃ m2, m = m2 + 1 := ⟨m - 1, by omega⟩
      simp only [Workload.enum] at h ⊢
      cases hsrc : Workload.enum n w with
      | none => rw [hsrc] at h; exact Option.noConfusion h
      | some src =>
        cases hps : Workload.enum n pegs with
        | none => rw [hsrc, hps] at h; exact Option.noConfusion h
        | some ps =>
          rw [hsrc, hps] at h
          rw [ih m w src (by omega) hsrc, ih m pegs ps (by omega) hps]
          simp only [Option.map_eq_some'] at h ⊢
          obtain ⟨outs, houts, rfl⟩ := h
          refine ⟨outs, ?_, rfl⟩
          refine mapOpt_mono _ _ (fun a b hab => ?_) src outs houts
          exact substRun_mono hole ps n m [(a, ps)] b (by omega) hab

/-!
Relating `mapOpt` and `joinL` to pointwise facts.
-/

theorem mapOpt_forall2 (f : Sexp → Option (List Sexp)) :
    ∀ l bs, mapOpt f l = some bs → List.Forall₂ (fun a b => f a = some b) l bs := by
  intro l
  induction l with
  | nil =>
    intro bs h
    simp only [mapOpt, Option.some_inj] at h
    subst h
    exact List.Forall₂.nil
  | cons a l ih =>
    intro bs h
    simp only [mapOpt] at h
    cases hfa : f a with
    | some b =>
      rw [hfa] at h
      simp only [Option.map_eq_some'] at h
      obtain ⟨bs0, hbs0, rfl⟩ := h
      exact List.Forall₂.cons hfa (ih bs0 hbs0)
    | none => rw [hfa] at h; exact Option.noConfusion h

theorem mapOpt_of_forall2 (f : Sexp → Option (List Sexp)) :
    ∀ l bs, List.Forall₂ (fun a b => f a = some b) l bs → mapOpt f l = some bs := by
  intro l bs h
  induction h with
  | nil => rfl
  | cons hab _ ih =>
    simp only [mapOpt, hab, ih, Option.map_some']

theorem forall2_mem_right {R : Sexp → List Sexp → Prop} :
    ∀ l bs, List.Forall₂ R l bs → ∀ b ∈ bs, ∃ a ∈ l, R a b := by
  intro l bs h
  induction h with
  | nil => intro b hb; exact absurd hb (List.not_mem_nil b)
  | cons hab _ ih =>
    intro b hb
    rcases List.mem_cons.mp hb with rfl | hb2
    · exact ⟨_, List.mem_cons_self _ _, hab⟩
    · obtain ⟨a, ha, hr⟩ := ih b hb2
      exact ⟨a, List.mem_cons_of_mem _ ha, hr⟩

theorem joinL_mem (x : Sexp) : ∀ ls, x ∈ joinL ls ↔ ∃ l ∈ ls, x ∈ l := by
  intro ls
  induction ls with
  | nil => simp [joinL]
  | cons l ls ih => simp [joinL, List.mem_append, ih]

/-- Every expression an iterator run yields passed the occurrence check:
the yield branch of `SexpSubstIter::next` fires only when `replace_first`
reports no occurrence. -/
theorem substRun_out_free (needle : String) (pegs : List Sexp) :
    ∀ n stack L, substRun needle pegs n stack = some L →
      ∀ x ∈ L, Sexp.occ needle x = 0 := by
  intro n
  induction n with
  | zero => intro stack L h; simp [substRun] at h
  | succ n ih =>
    intro stack L h
    cases stack with
    | nil =>
      simp only [substRun, Option.some_inj] at h
      subst h
      intro x hx
      exact absurd hx (List.not_mem_nil x)
    | cons fr rest =>
      obtain ⟨e, it⟩ := fr
      cases it with
      | nil => exact ih rest L h
      | cons v it =>
        replace h :
            (match Sexp.replace_first needle v e with
              | some e2 => substRun needle pegs n ((e2, pegs) :: (e, it) :: rest)
              | none => (substRun needle pegs n rest).map (fun L => e :: L)) = some L := h
        cases hr : Sexp.replace_first needle v e with
        | some e2 =>
          rw [hr] at h
          exact ih _ L h
        | none =>
          rw [hr] at h
          simp only [Option.map_eq_some'] at h
          obtain ⟨L0, h0, rfl⟩ := h
          intro x hx
          rcases List.mem_cons.mp hx with rfl | hx2
          · exact (replace_none_iff needle v x).mp hr
          · exact ih rest L0 h0 x hx2

/-- C5: enumerating `Set(items)` yields exactly `items`, in the given order,
each exactly once, and a second enumeration constructed from the same plan
yields the identical sequence. -/
theorem set_enum_exact (items : List Sexp) (n m : Nat) :
    Workload.enum n (Workload.Set items) = some items ∧
      Workload.enum m (Workload.Set items) = some items :=
  ⟨enum_Set n items, enum_Set m items⟩

/-- C9: enumeration is deterministic — two enumerations of the same plan,
each run from scratch (with any fuel), produce the same sequence whenever
they complete. -/
theorem enum_deterministic (w : Workload) (n m : Nat) (L L2 : List Sexp)
    (h1 : Workload.enum n w = some L) (h2 : Workload.enum m w = some L2) :
    L = L2 := by
  rcases Nat.le_total n m with h | h
  · have h3 := enum_mono n m w L h h1
    rw [h3] at h2
    exact Option.some_inj.mp h2
  · have h3 := enum_mono m n w L2 h h2
    rw [h3] at h1
    exact (Option.some_inj.mp h1).symm

/-- Witness for C9 at a concrete plan and two different fuels. -/
theorem enum_deterministic_witness : ([Sexp.atom "x"] : List Sexp) = [Sexp.atom "x"] :=
  enum_deterministic (Workload.Set [Sexp.atom "x"]) 0 5 _ _ rfl rfl

/-- C6: a `Plug` source expression in which the hole does not occur
contributes exactly one output — the expression itself, unchanged — as long
as the pegs enumeration yields at least one value (two units of fuel, one
per `next` call, suffice). -/
theorem no_occurrence_single_output (needle : String) (pegs : List Sexp) (e : Sexp)
    (hocc : Sexp.occ needle e = 0) (hne : pegs ≠ []) :
    ∀ n, 2 ≤ n → substIter needle pegs n e = some [e] := by
  intro n hn
  obtain ⟨m, rfl⟩ : ∃ m, n = m + 2 := ⟨n - 2, by omega⟩
  cases pegs with
  | nil => exact absurd rfl hne
  | cons p ps =>
    show substRun needle (p :: ps) (m + 2) [(e, p :: ps)] = some [e]
    have hrep : Sexp.replace_first needle p e = none :=
      (replace_none_iff needle p e).mpr hocc
    simp [substRun, hrep]

/-- Witness for C6: a hole-free atom passes through unchanged. -/
theorem no_occurrence_single_output_witness :
    substIter "A" [Sexp.atom "0"] 2 (Sexp.atom "x") = some [Sexp.atom "x"] :=
  no_occurrence_single_output "A" [Sexp.atom "0"] (Sexp.atom "x") (by decide)
    (by simp) 2 (by omega)

/-- C7: when the pegs enumeration yields zero values, a source expression
contributes zero outputs — whether or not the hole occurs in it (the peg is
pulled before the occurrence check, so even a hole-free expression is
dropped) — and the empty result is an ordinary completed enumeration, not
an error. -/
theorem empty_pegs_no_output (needle : String) (e : Sexp) :
    ∀ n, 2 ≤ n → substIter needle [] n e = some [] := by
  intro n hn
  obtain ⟨m, rfl⟩ : ∃ m, n = m + 2 := ⟨n - 2, by omega⟩
  show substRun needle [] (m + 2) [(e, [])] = some []
  simp [substRun]

/-- Witness for C7 on an expression that is exactly the hole. -/
theorem empty_pegs_no_output_witness :
    substIter "A" [] 2 (Sexp.atom "A") = some [] :=
  empty_pegs_no_output "A" (Sexp.atom "A") 2 (by omega)

/-- C2: enumerating `Plug(source, hole, pegs)` as a whole equals the
concatenation, in `source`'s enumeration order, of the outputs of one
independent substitution enumerator per source expression, each seeded with
that expression and a fresh enumeration of `pegs` (every fresh enumeration
of the pure plan `pegs` equals `ps`). -/
theorem plug_concat_of_sources (w p : Workload) (hole : String) (n : Nat)
    (src ps : List Sexp) (outs : List (List Sexp))
    (hw : Workload.enum n w = some src) (hp : Workload.enum n p = some ps)
    (houts : List.Forall₂ (fun e o => substIter hole ps n e = some o) src outs) :
    Workload.enum (n + 1) (Workload.Plug w hole p) = some (joinL outs) := by
  simp only [Workload.enum, hw, hp]
  rw [mapOpt_of_forall2 _ _ _ houts]
  rfl

/-- Witness for C2: one source expression, one peg. -/
theorem plug_concat_of_sources_witness :
    Workload.enum 3 (Workload.Plug (Workload.Set [Sexp.atom "x"]) "A"
      (Workload.Set [Sexp.atom "y"])) = some (joinL [[Sexp.atom "x"]]) :=
  plug_concat_of_sources (Workload.Set [Sexp.atom "x"]) (Workload.Set [Sexp.atom "y"])
    "A" 2 [Sexp.atom "x"] [Sexp.atom "y"] [[Sexp.atom "x"]] rfl rfl
    (List.Forall₂.cons (by rfl) List.Forall₂.nil)

/-- C10: every expression a completed `Plug` enumeration yields contains no
occurrence of the hole atom — pegs that themselves contain the hole are
substituted into in deeper layers first, and an expression is emitted only
once `replace_first` reports no occurrence. -/
theorem plug_outputs_hole_free (w p : Workload) (hole : String) (n : Nat) (L : List Sexp)
    (h : Workload.enum n (Workload.Plug w hole p) = some L) :
    ∀ x ∈ L, Sexp.occ hole x = 0 := by
  cases n with
  | zero => simp [Workload.enum] at h
  | succ n =>
    simp only [Workload.enum] at h
    cases hsrc : Workload.enum n w with
    | none => rw [hsrc] at h; exact Option.noConfusion h
    | some src =>
      cases hps : Workload.enum n p with
      | none => rw [hsrc, hps] at h; exact Option.noConfusion h
      | some ps =>
        rw [hsrc, hps] at h
        replace h : (mapOpt (fun e => substIter hole ps n e) src).map joinL = some L := h
        simp only [Option.map_eq_some'] at h
        obtain ⟨outs, houts, rfl⟩ := h
        intro x hx
        rw [joinL_mem] at hx
        obtain ⟨l, hl, hxl⟩ := hx
        obtain ⟨a, _, ha⟩ := forall2_mem_right _ _ (mapOpt_forall2 _ _ _ houts) l hl
        exact substRun_out_free hole ps n [(a, ps)] l ha x hxl

/-- Witness for C10 on a completed concrete `Plug` enumeration. -/
theorem plug_outputs_hole_free_witness : Sexp.occ "A" (Sexp.atom "x") = 0 :=
  plug_outputs_hole_free (Workload.Set [Sexp.atom "x"]) (Workload.Set [Sexp.atom "y"])
    "A" 3 [Sexp.atom "x"] (by rfl) (Sexp.atom "x") (by simp)

/-- C3: the nested plan of `main` — `(+ A B)` plugged `A` with `{0,1,2}`
and then `B` with `{a,b}` — enumerates to exactly six expressions, with the
inner hole `A` varying slower than the outer hole `B`. -/
theorem nested_plug_order :
    Workload.Yields
      (((Workload.Set [Sexp.list [Sexp.atom "+", Sexp.atom "A", Sexp.atom "B"]]).plug
          "A" (Workload.Set [Sexp.atom "0", Sexp.atom "1", Sexp.atom "2"])).plug
        "B" (Workload.Set [Sexp.atom "a", Sexp.atom "b"]))
      [Sexp.list [Sexp.atom "+", Sexp.atom "0", Sexp.atom "a"],
       Sexp.list [Sexp.atom "+", Sexp.atom "0", Sexp.atom "b"],
       Sexp.list [Sexp.atom "+", Sexp.atom "1", Sexp.atom "a"],
       Sexp.list [Sexp.atom "+", Sexp.atom "1", Sexp.atom "b"],
       Sexp.list [Sexp.atom "+", Sexp.atom "2", Sexp.atom "a"],
       Sexp.list [Sexp.atom "+", Sexp.atom "2", Sexp.atom "b"]] :=
  ⟨30, by rfl⟩

/-!
Divergence: when a peg contains the hole itself, `replace_first` always
succeeds again on the spawned child, so `SexpSubstIter::next` recurses
forever without yielding.  In the fuel model: no fuel completes the run.
-/

theorem substRun_self_peg_none :
    ∀ n t, substRun "A" [Sexp.atom "A"] n
      ((Sexp.atom "A", [Sexp.atom "A"]) :: t) = none := by
  intro n
  induction n with
  | zero => intro t; rfl
  | succ n ih =>
    intro t
    have hrep : Sexp.replace_first "A" (Sexp.atom "A") (Sexp.atom "A") =
        some (Sexp.atom "A") := by rfl
    simp only [substRun]
    rw [hrep]
    exact ih ((Sexp.atom "A", []) :: t)

theorem enum_self_peg_none :
    ∀ n, Workload.enum n (Workload.Plug (Workload.Set [Sexp.atom "A"]) "A"
      (Workload.Set [Sexp.atom "A"])) = none := by
  intro n
  cases n with
  | zero => rfl
  | succ n =>
    simp only [Workload.enum, enum_Set, substIter, mapOpt, substRun_self_peg_none,
      Option.map_none']

/-- C1 counterexample: for the source expression `A` with one occurrence of
the hole `A` and the single peg `A` (so `m ^ k = 1`), the enumeration never
completes — it yields no sequence at all, in particular not the predicted
one-element sequence. -/
theorem plug_single_cartesian_cex :
    ¬ Workload.Yields (Workload.Plug (Workload.Set [Sexp.atom "A"]) "A"
      (Workload.Set [Sexp.atom "A"])) [Sexp.atom "A"] := by
  intro h
  obtain ⟨n, hn⟩ := h
  rw [enum_self_peg_none n] at hn
  exact Option.noConfusion hn

/-- C4 counterexample: the finite plan `Plug(Set([A]), A, Set([A]))` has an
enumeration that never terminates: no sequence is ever completed. -/
theorem plan_terminates_cex :
    ¬ ∃ L, Workload.Yields (Workload.Plug (Workload.Set [Sexp.atom "A"]) "A"
      (Workload.Set [Sexp.atom "A"])) L := by
  intro h
  obtain ⟨L, n, hn⟩ := h
  rw [enum_self_peg_none n] at hn
  exact Option.noConfusion hn

/-!
Correctness of the stack machine when no peg contains the needle: the run
terminates and produces exactly the denotation of the stack.
-/

theorem frameDen_fresh (needle : String) (pegs : List Sexp) (e : Sexp) :
    frameDen needle pegs e pegs = expandK needle pegs (Sexp.occ needle e) e := by
  cases hk : Sexp.occ needle e with
  | zero => simp [frameDen, expandK, hk]
  | succ k => simp [frameDen, expandK, hk]

theorem substRun_correct (needle : String) (pegs : List Sexp)
    (hp : ∀ x ∈ pegs, Sexp.occ needle x = 0) :
    ∀ n stack, goodStack needle stack → muStack needle pegs stack < n →
      substRun needle pegs n stack = some (stackDen needle pegs stack) := by
  intro n
  induction n with
  | zero => intro stack _ hmu; omega
  | succ n ih =>
    intro stack hg hmu
    cases stack with
    | nil => simp [substRun, stackDen]
    | cons fr rest =>
      obtain ⟨e, it⟩ := fr
      have hgrest : goodStack needle rest := fun fr2 h2 =>
        hg fr2 (List.mem_cons_of_mem _ h2)
      have hfrpos : 0 < muFrame needle pegs (e, it) := by
        simp only [muFrame]
        positivity
      cases it with
      | nil =>
        have hmu2 : muStack needle pegs rest < n := by
          simp only [muStack] at hmu
          omega
        have hden : frameDen needle pegs e [] = [] := by
          cases hk : Sexp.occ needle e with
          | zero => simp [frameDen, hk]
          | succ k => simp [frameDen, hk, flatMapL]
        simp only [substRun, stackDen, hden, List.nil_append]
        exact ih rest hgrest hmu2
      | cons v it =>
        have hv0 : Sexp.occ needle v = 0 :=
          hg (e, v :: it) (List.mem_cons_self _ _) v (List.mem_cons_self _ _)
        cases hr : Sexp.replace_first needle v e with
        | none =>
          have he0 : Sexp.occ needle e = 0 := (replace_none_iff needle v e).mp hr
          have hmu2 : muStack needle pegs rest < n := by
            simp only [muStack] at hmu
            omega
          have hden : frameDen needle pegs e (v :: it) = [e] := by
            simp [frameDen, he0]
          simp only [substRun]
          rw [hr]
          show (substRun needle pegs n rest).map (fun L => e :: L)
            = some (stackDen needle pegs ((e, v :: it) :: rest))
          rw [ih rest hgrest hmu2]
          simp only [Option.map_some', stackDen, hden, List.singleton_append]
        | some e2 =>
          have hocc := occ_replace needle v e e2 hr
          have hepos : Sexp.occ needle e ≠ 0 := by
            intro h0
            rw [(replace_none_iff needle v e).mpr h0] at hr
            exact Option.noConfusion hr
          obtain ⟨k, hk⟩ : ∃ k, Sexp.occ needle e = k + 1 :=
            ⟨Sexp.occ needle e - 1, by omega⟩
          have hk2 : Sexp.occ needle e2 = k := by omega
          have hgnew : goodStack needle ((e2, pegs) :: (e, it) :: rest) := by
            intro fr2 hfr2 x hx
            rcases List.mem_cons.mp hfr2 with rfl | hfr3
            · exact hp x hx
            rcases List.mem_cons.mp hfr3 with rfl | hfr4
            · exact hg (e, v :: it) (List.mem_cons_self _ _) x
                (List.mem_cons_of_mem _ hx)
            · exact hg fr2 (List.mem_cons_of_mem _ hfr4) x hx
          have hlt : muStack needle pegs ((e2, pegs) :: (e, it) :: rest)
              < muStack needle pegs ((e, v :: it) :: rest) := by
            have hpow : 0 < (pegs.length + 2) ^ k := pow_pos (by omega) k
            simp only [muStack, muFrame, List.length_cons, hk, hk2]
            rw [pow_succ]
            nlinarith [hpow]
          have hmu2 : muStack needle pegs ((e2, pegs) :: (e, it) :: rest) < n := by
            omega
          have hden : stackDen needle pegs ((e2, pegs) :: (e, it) :: rest)
              = stackDen needle pegs ((e, v :: it) :: rest) := by
            simp only [stackDen, frameDen_fresh, hk2]
            simp only [frameDen, hk, flatMapL]
            simp only [hr]
            rw [List.append_assoc]
          simp only [substRun]
          rw [hr]
          show substRun needle pegs n ((e2, pegs) :: (e, it) :: rest)
            = some (stackDen needle pegs ((e, v :: it) :: rest))
          rw [ih _ hgnew hmu2, hden]

/-- A single fresh frame: with enough fuel the iterator for `e` terminates
and yields exactly `expandK` at `e`'s occurrence count. -/
theorem substIter_expandK (needle : String) (pegs : List Sexp)
    (hp : ∀ x ∈ pegs, Sexp.occ needle x = 0) (e : Sexp) :
    ∀ n, muStack needle pegs [(e, pegs)] < n →
      substIter needle pegs n e = some (expandK needle pegs (Sexp.occ needle e) e) := by
  intro n hn
  have hg : goodStack needle [(e, pegs)] := by
    intro fr hfr x hx
    rcases List.mem_cons.mp hfr with rfl | h2
    · exact hp x hx
    · exact absurd h2 (List.not_mem_nil _)
  have h := substRun_correct needle pegs hp n [(e, pegs)] hg hn
  show substRun needle pegs n [(e, pegs)] = _
  rw [h]
  simp [stackDen, frameDen_fresh]

/-!
The denotation `expandK` is the Cartesian product in lexicographic order:
occurrence position major, peg order minor.
-/

theorem flatMapL_map {α β γ : Type} (g : β → γ) (f : α → List β) :
    ∀ l, (flatMapL f l).map g = flatMapL (fun a => (f a).map g) l := by
  intro l
  induction l with
  | nil => rfl
  | cons a l ih => simp [flatMapL, ih]

theorem flatMapL_congr {α β : Type} (f g : α → List β) :
    ∀ l, (∀ a ∈ l, f a = g a) → flatMapL f l = flatMapL g l := by
  intro l
  induction l with
  | nil => intro _; rfl
  | cons a l ih =>
    intro h
    simp only [flatMapL]
    rw [h a (List.mem_cons_self _ _), ih (fun b hb => h b (List.mem_cons_of_mem _ hb))]

theorem flatMapL_mem {α β : Type} (f : α → List β) (x : β) :
    ∀ l, x ∈ flatMapL f l ↔ ∃ a ∈ l, x ∈ f a := by
  intro l
  induction l with
  | nil => simp [flatMapL]
  | cons a l ih => simp [flatMapL, List.mem_append, ih]

theorem flatMapL_length_const {α β : Type} (f : α → List β) (c : Nat) :
    ∀ l, (∀ a ∈ l, (f a).length = c) → (flatMapL f l).length = l.length * c := by
  intro l
  induction l with
  | nil => intro _; simp [flatMapL]
  | cons a l ih =>
    intro h
    simp only [flatMapL, List.length_append, List.length_cons]
    rw [h a (List.mem_cons_self _ _), ih (fun b hb => h b (List.mem_cons_of_mem _ hb))]
    ring

theorem tuples_mem (ps : List Sexp) :
    ∀ k cs, cs ∈ tuples k ps → cs.length = k ∧ ∀ c ∈ cs, c ∈ ps := by
  intro k
  induction k with
  | zero =>
    intro cs h
    simp only [tuples, List.mem_singleton] at h
    subst h
    exact ⟨rfl, fun c hc => absurd hc (List.not_mem_nil c)⟩
  | succ k ih =>
    intro cs h
    simp only [tuples] at h
    rw [flatMapL_mem] at h
    obtain ⟨p, hp, hcs⟩ := h
    simp only [List.mem_map] at hcs
    obtain ⟨cs0, hcs0, rfl⟩ := hcs
    obtain ⟨hlen, hmem⟩ := ih cs0 hcs0
    refine ⟨by simp [hlen], fun c hc => ?_⟩
    rcases List.mem_cons.mp hc with rfl | hc2
    · exact hp
    · exact hmem c hc2

theorem tuples_length (ps : List Sexp) :
    ∀ k, (tuples k ps).length = ps.length ^ k := by
  intro k
  induction k with
  | zero => simp [tuples]
  | succ k ih =>
    simp only [tuples]
    rw [flatMapL_length_const _ ((tuples k ps).length) ps (fun a _ => by simp)]
    rw [ih, pow_succ]
    ring

theorem substSeq_isSome (needle : String) :
    ∀ cs e, Sexp.occ needle e = cs.length → (∀ c ∈ cs, Sexp.occ needle c = 0) →
      ∃ r, substSeq needle e cs = some r := by
  intro cs
  induction cs with
  | nil => intro e _ _; exact ⟨e, rfl⟩
  | cons c cs ih =>
    intro e hocc hfree
    have hc0 : Sexp.occ needle c = 0 := hfree c (List.mem_cons_self _ _)
    obtain ⟨e2, he2⟩ := replace_isSome needle c e
      (by simp only [List.length_cons] at hocc; omega)
    have hocc2 : Sexp.occ needle e2 = cs.length := by
      have := occ_replace needle c e e2 he2
      simp only [List.length_cons] at hocc
      omega
    obtain ⟨r, hr⟩ := ih e2 hocc2 (fun d hd => hfree d (List.mem_cons_of_mem _ hd))
    exact ⟨r, by simp [substSeq, he2, hr]⟩

theorem expandK_eq_tuples (needle : String) (ps : List Sexp)
    (hfree : ∀ x ∈ ps, Sexp.occ needle x = 0) (hne : ps ≠ []) :
    ∀ k e, Sexp.occ needle e = k →
      expandK needle ps k e
        = (tuples k ps).map (fun cs => (substSeq needle e cs).getD e) := by
  intro k
  induction k with
  | zero =>
    intro e _
    have hps : ps.isEmpty = false := by
      cases ps with
      | nil => exact absurd rfl hne
      | cons a l => rfl
    simp [expandK, tuples, hps, substSeq]
  | succ k ih =>
    intro e hk
    have hne2 : Sexp.occ needle e ≠ 0 := by omega
    simp only [expandK, tuples]
    rw [flatMapL_map]
    refine flatMapL_congr _ _ ps (fun p hp => ?_)
    obtain ⟨e2, he2⟩ := replace_isSome needle p e hne2
    have hocc2 : Sexp.occ needle e2 = k := by
      have h1 := occ_replace needle p e e2 he2
      have hp0 := hfree p hp
      omega
    simp only [he2]
    rw [ih e2 hocc2, List.map_map]
    refine List.map_congr_left (fun cs hcs => ?_)
    obtain ⟨hlen, hmem⟩ := tuples_mem ps k cs hcs
    obtain ⟨r, hr⟩ := substSeq_isSome needle cs e2 (by omega)
      (fun d hd => hfree d (hmem d hd))
    simp only [Function.comp, substSeq, he2, hr, Option.getD_some]

/-- C1 (amended with the hypothesis that no peg contains the hole — without
it the enumeration need not terminate, see the counterexample): for
`Plug(Set([e]), h, Set(pegs))` with `k ≥ 1` occurrences of the hole in `e`
and `m ≥ 1` hole-free pegs, the enumeration completes and yields exactly
the `m ^ k` expressions obtained by substituting every combination of pegs
for the occurrences, each combination exactly once, ordered
lexicographically with the occurrence position as major key and the peg
position as minor key (`tuples`), every substitution chain succeeding. -/
theorem plug_single_cartesian (e : Sexp) (hole : String) (pegs : List Sexp)
    (hk : 1 ≤ Sexp.occ hole e) (hm : 1 ≤ pegs.length)
    (hfree : ∀ x ∈ pegs, Sexp.occ hole x = 0) :
    ∃ n, Workload.enum n (Workload.Plug (Workload.Set [e]) hole (Workload.Set pegs))
        = some ((tuples (Sexp.occ hole e) pegs).map
            (fun cs => (substSeq hole e cs).getD e))
      ∧ ((tuples (Sexp.occ hole e) pegs).map
            (fun cs => (substSeq hole e cs).getD e)).length
          = pegs.length ^ Sexp.occ hole e
      ∧ ∀ cs ∈ tuples (Sexp.occ hole e) pegs, ∃ r, substSeq hole e cs = some r := by
  have hne : pegs ≠ [] := by
    intro h
    rw [h] at hm
    simp at hm
  refine ⟨muStack hole pegs [(e, pegs)] + 2, ?_, ?_, ?_⟩
  · have hsub := substIter_expandK hole pegs hfree e
      (muStack hole pegs [(e, pegs)] + 1) (by omega)
    simp only [Workload.enum, enum_Set, mapOpt, hsub, Option.map_some']
    rw [expandK_eq_tuples hole pegs hfree hne _ e rfl]
    simp [joinL]
  · rw [List.length_map, tuples_length]
  · intro cs hcs
    obtain ⟨hlen, hmem⟩ := tuples_mem pegs (Sexp.occ hole e) cs hcs
    exact substSeq_isSome hole cs e (by omega)
      (fun d hd => hfree d (hmem d hd))

/-- Witness for C1 at the template `(+ A A)` (two occurrences) with the
hole-free pegs `{0, 1}`. -/
theorem plug_single_cartesian_witness :
    ∃ n, Workload.enum n (Workload.Plug
        (Workload.Set [Sexp.list [Sexp.atom "+", Sexp.atom "A", Sexp.atom "A"]]) "A"
        (Workload.Set [Sexp.atom "0", Sexp.atom "1"]))
        = some ((tuples
              (Sexp.occ "A" (Sexp.list [Sexp.atom "+", Sexp.atom "A", Sexp.atom "A"]))
              [Sexp.atom "0", Sexp.atom "1"]).map
            (fun cs =>
              (substSeq "A" (Sexp.list [Sexp.atom "+", Sexp.atom "A", Sexp.atom "A"])
                  cs).getD
                (Sexp.list [Sexp.atom "+", Sexp.atom "A", Sexp.atom "A"])))
      ∧ ((tuples
              (Sexp.occ "A" (Sexp.list [Sexp.atom "+", Sexp.atom "A", Sexp.atom "A"]))
              [Sexp.atom "0", Sexp.atom "1"]).map
            (fun cs =>
              (substSeq "A" (Sexp.list [Sexp.atom "+", Sexp.atom "A", Sexp.atom "A"])
                  cs).getD
                (Sexp.list [Sexp.atom "+", Sexp.atom "A", Sexp.atom "A"]))).length
          = (List.length [Sexp.atom "0", Sexp.atom "1"]) ^
              Sexp.occ "A" (Sexp.list [Sexp.atom "+", Sexp.atom "A", Sexp.atom "A"])
      ∧ ∀ cs ∈ tuples
            (Sexp.occ "A" (Sexp.list [Sexp.atom "+", Sexp.atom "A", Sexp.atom "A"]))
            [Sexp.atom "0", Sexp.atom "1"],
          ∃ r, substSeq "A" (Sexp.list [Sexp.atom "+", Sexp.atom "A", Sexp.atom "A"]) cs
            = some r :=
  plug_single_cartesian (Sexp.list [Sexp.atom "+", Sexp.atom "A", Sexp.atom "A"]) "A"
    [Sexp.atom "0", Sexp.atom "1"] (by decide) (by decide) (by decide)

/-!
Termination for safe plans.
-/

theorem mapOpt_exists_fuel (hole : String) (ps : List Sexp)
    (hfree : ∀ x ∈ ps, Sexp.occ hole x = 0) :
    ∀ src, ∃ N outs, mapOpt (fun e => substIter hole ps N e) src = some outs := by
  intro src
  induction src with
  | nil => exact ⟨0, [], rfl⟩
  | cons a l ih =>
    obtain ⟨N, outs, hN⟩ := ih
    refine ⟨max (muStack hole ps [(a, ps)] + 1) N,
      expandK hole ps (Sexp.occ hole a) a :: outs, ?_⟩
    have ha := substIter_expandK hole ps hfree a
      (max (muStack hole ps [(a, ps)] + 1) N)
      (lt_of_lt_of_le (Nat.lt_succ_self _) (Nat.le_max_left _ _))
    have hl : mapOpt
        (fun e => substIter hole ps (max (muStack hole ps [(a, ps)] + 1) N) e) l
        = some outs := by
      refine mapOpt_mono _ _ (fun x b hx => ?_) l outs hN
      exact substRun_mono hole ps N _ [(x, ps)] b (Nat.le_max_right _ _) hx
    simp only [mapOpt, ha, hl, Option.map_some']

/-- C4 (amended with safety — without it enumeration need not terminate,
see the counterexample): for every plan in which no `Plug` node's pegs plan
can yield a peg containing that node's hole, the enumeration terminates:
some finite fuel completes it with a finite sequence of expressions. -/
theorem safe_plan_terminates (w : Workload) (hs : SafeW w) :
    ∃ n L, Workload.enum n w = some L := by
  induction hs with
  | set v => exact ⟨0, v, enum_Set 0 v⟩
  | plug w p hole hw hp hfree ihw ihp =>
    obtain ⟨n1, src, h1⟩ := ihw
    obtain ⟨n2, ps, h2⟩ := ihp
    have hfree2 : ∀ x ∈ ps, Sexp.occ hole x = 0 := hfree ps ⟨n2, h2⟩
    obtain ⟨N, outs, hN⟩ := mapOpt_exists_fuel hole ps hfree2 src
    refine ⟨max (max n1 n2) N + 1, joinL outs, ?_⟩
    have hn1 : n1 ≤ max (max n1 n2) N :=
      le_trans (Nat.le_max_left n1 n2) (Nat.le_max_left _ N)
    have hn2 : n2 ≤ max (max n1 n2) N :=
      le_trans (Nat.le_max_right n1 n2) (Nat.le_max_left _ N)
    have hnN : N ≤ max (max n1 n2) N := Nat.le_max_right _ _
    have h1M := enum_mono n1 _ w src hn1 h1
    have h2M := enum_mono n2 _ p ps hn2 h2
    have hNM : mapOpt (fun e => substIter hole ps (max (max n1 n2) N) e) src
        = some outs := by
      refine mapOpt_mono _ _ (fun x b hx => ?_) src outs hN
      exact substRun_mono hole ps N _ [(x, ps)] b hnN hx
    simp only [Workload.enum, h1M, h2M, hNM, Option.map_some']

/-- Witness for C4 on a concrete safe plan. -/
theorem safe_plan_terminates_witness :
    ∃ n L, Workload.enum n (Workload.Plug (Workload.Set [Sexp.atom "A"]) "A"
      (Workload.Set [Sexp.atom "0"])) = some L :=
  safe_plan_terminates _ (SafeW.plug _ _ _ (SafeW.set _) (SafeW.set _)
    (fun L hL x hx => by
      obtain ⟨n, hn⟩ := hL
      rw [enum_Set] at hn
      cases hn
      rcases List.mem_singleton.mp hx with rfl
      decide))

/-!
Path lemmas for the pre-order specification of `replace_first`.
-/

theorem getAt_list (cs : List Sexp) (i : Nat) (p : List Nat) :
    Sexp.getAt (Sexp.list cs) (i :: p) = getAtL cs (i :: p) := by
  cases h : cs[i]? <;> simp [Sexp.getAt, getAtL, h]

theorem setAt_list (cs : List Sexp) (v : Sexp) (i : Nat) (p : List Nat) :
    Sexp.setAt (Sexp.list cs) (i :: p) v = (setAtL cs v (i :: p)).map Sexp.list := by
  cases h : cs[i]? with
  | none => simp [Sexp.setAt, setAtL, h]
  | some c =>
    simp only [Sexp.setAt, setAtL, h, Option.map_map]
    rfl

theorem getAtL_zero (c : Sexp) (cs : List Sexp) (p : List Nat) :
    getAtL (c :: cs) (0 :: p) = Sexp.getAt c p := by
  simp [getAtL]

theorem getAtL_bump (c : Sexp) (cs : List Sexp) (i : Nat) (p : List Nat) :
    getAtL (c :: cs) ((i + 1) :: p) = getAtL cs (i :: p) := by
  simp [getAtL]

theorem setAtL_zero (c : Sexp) (cs : List Sexp) (v : Sexp) (p : List Nat) :
    setAtL (c :: cs) v (0 :: p) = (Sexp.setAt c p v).map (fun c2 => c2 :: cs) := by
  simp [setAtL]

theorem setAtL_bump (c : Sexp) (cs : List Sexp) (v : Sexp) (i : Nat) (p : List Nat) :
    setAtL (c :: cs) v ((i + 1) :: p)
      = (setAtL cs v (i :: p)).map (fun cs2 => c :: cs2) := by
  cases h : cs[i]? with
  | none => simp [setAtL, h]
  | some c0 =>
    cases h2 : Sexp.setAt c0 p v <;> simp [setAtL, h, h2]

theorem atomPathsL_shape : ∀ cs q, q ∈ atomPathsL cs → ∃ i p, q = i :: p := by
  intro cs
  induction cs with
  | nil => intro q hq; exact absurd hq (List.not_mem_nil q)
  | cons c cs ih =>
    intro q hq
    simp only [atomPathsL, List.mem_append, List.mem_map] at hq
    rcases hq with ⟨p0, _, rfl⟩ | ⟨q0, hq0, rfl⟩
    · exact ⟨0, p0, rfl⟩
    · obtain ⟨i, p1, rfl⟩ := ih q0 hq0
      exact ⟨i + 1, p1, rfl⟩

mutual
theorem replace_first_paths (s : String) (v : Sexp) :
    (e : Sexp) →
      (Sexp.replace_first s v e = none →
        ∀ p ∈ Sexp.atomPaths e, Sexp.getAt e p ≠ some (Sexp.atom s)) ∧
      (∀ e2, Sexp.replace_first s v e = some e2 →
        ∃ l p r, Sexp.atomPaths e = l ++ p :: r
          ∧ (∀ q ∈ l, Sexp.getAt e q ≠ some (Sexp.atom s))
          ∧ Sexp.getAt e p = some (Sexp.atom s)
          ∧ Sexp.setAt e p v = some e2)
  | Sexp.atom a => by
    by_cases ha : a = s
    · constructor
      · intro hn
        rw [Sexp.replace_first, if_pos ha] at hn
        exact Option.noConfusion hn
      · intro e2 h2
        rw [Sexp.replace_first, if_pos ha] at h2
        cases h2
        refine ⟨[], [], [], ?_, ?_, ?_, ?_⟩
        · simp [Sexp.atomPaths]
        · intro q hq; exact absurd hq (List.not_mem_nil q)
        · simp [Sexp.getAt, ha]
        · rfl
    · constructor
      · intro _ p hp
        simp only [Sexp.atomPaths, List.mem_singleton] at hp
        subst hp
        simp only [Sexp.getAt]
        intro h
        simp only [Option.some.injEq, Sexp.atom.injEq] at h
        exact ha h
      · intro e2 h2
        rw [Sexp.replace_first, if_neg ha] at h2
        exact Option.noConfusion h2
  | Sexp.list cs => by
    have hL := replaceFirstList_paths s v cs
    constructor
    · intro hn p hp
      simp only [Sexp.replace_first, Option.map_eq_none'] at hn
      simp only [Sexp.atomPaths] at hp
      obtain ⟨i, p0, rfl⟩ := atomPathsL_shape cs p hp
      rw [getAt_list]
      exact hL.1 hn _ hp
    · intro e2 h2
      simp only [Sexp.replace_first, Option.map_eq_some'] at h2
      obtain ⟨cs2, hcs2, rfl⟩ := h2
      obtain ⟨l, p, r, hsplit, hl, hp, hset⟩ := hL.2 cs2 hcs2
      refine ⟨l, p, r, ?_, ?_, ?_, ?_⟩
      · simpa only [Sexp.atomPaths] using hsplit
      · intro q hq
        obtain ⟨i, q0, rfl⟩ := atomPathsL_shape cs q
          (by rw [hsplit]; exact List.mem_append_left _ hq)
        rw [getAt_list]
        exact hl _ hq
      · obtain ⟨i, p0, rfl⟩ := atomPathsL_shape cs p (by rw [hsplit]; simp)
        rw [getAt_list]
        exact hp
      · obtain ⟨i, p0, rfl⟩ := atomPathsL_shape cs p (by rw [hsplit]; simp)
        rw [setAt_list, hset]
        rfl

theorem replaceFirstList_paths (s : String) (v : Sexp) :
    (cs : List Sexp) →
      (Sexp.replaceFirstList s v cs = none →
        ∀ p ∈ atomPathsL cs, getAtL cs p ≠ some (Sexp.atom s)) ∧
      (∀ cs2, Sexp.replaceFirstList s v cs = some cs2 →
        ∃ l p r, atomPathsL cs = l ++ p :: r
          ∧ (∀ q ∈ l, getAtL cs q ≠ some (Sexp.atom s))
          ∧ getAtL cs p = some (Sexp.atom s)
          ∧ setAtL cs v p = some cs2)
  | [] => by
    constructor
    · intro _ p hp; exact absurd hp (List.not_mem_nil p)
    · intro cs2 h2; exact Option.noConfusion h2
  | c :: cs => by
    have hS := replace_first_paths s v c
    have hL := replaceFirstList_paths s v cs
    constructor
    · intro hn p hp
      simp only [Sexp.replaceFirstList] at hn
      cases hr : Sexp.replace_first s v c with
      | some c2 => rw [hr] at hn; exact Option.noConfusion hn
      | none =>
        rw [hr] at hn
        simp only [Option.map_eq_none'] at hn
        simp only [atomPathsL, List.mem_append, List.mem_map] at hp
        rcases hp with ⟨p0, hp0, rfl⟩ | ⟨q0, hq0, rfl⟩
        · rw [getAtL_zero]
          exact hS.1 hr p0 hp0
        · obtain ⟨i, q1, rfl⟩ := atomPathsL_shape cs q0 hq0
          simp only [bumpHead]
          rw [getAtL_bump]
          exact hL.1 hn _ hq0
    · intro cs2 h2
      simp only [Sexp.replaceFirstList] at h2
      cases hr : Sexp.replace_first s v c with
      | some c2 =>
        rw [hr] at h2
        cases h2
        obtain ⟨l, p, r, hsplit, hl, hp, hset⟩ := hS.2 c2 hr
        refine ⟨l.map (fun q => 0 :: q), 0 :: p,
          r.map (fun q => 0 :: q) ++ (atomPathsL cs).map bumpHead, ?_, ?_, ?_, ?_⟩
        · simp only [atomPathsL, hsplit, List.map_append, List.map_cons,
            List.append_assoc, List.cons_append]
        · intro q hq
          simp only [List.mem_map] at hq
          obtain ⟨q0, hq0, rfl⟩ := hq
          rw [getAtL_zero]
          exact hl q0 hq0
        · rw [getAtL_zero]
          exact hp
        · rw [setAtL_zero, hset]
          rfl
      | none =>
        rw [hr] at h2
        simp only [Option.map_eq_some'] at h2
        obtain ⟨cs0, hcs0, rfl⟩ := h2
        obtain ⟨l, p, r, hsplit, hl, hp, hset⟩ := hL.2 cs0 hcs0
        obtain ⟨i, p1, rfl⟩ := atomPathsL_shape cs p (by rw [hsplit]; simp)
        refine ⟨(Sexp.atomPaths c).map (fun q => 0 :: q) ++ l.map bumpHead,
          (i + 1) :: p1, r.map bumpHead, ?_, ?_, ?_, ?_⟩
        · simp only [atomPathsL, hsplit, List.map_append, List.map_cons,
            List.append_assoc, bumpHead]
        · intro q hq
          rcases List.mem_append.mp hq with hq1 | hq2
          · simp only [List.mem_map] at hq1
            obtain ⟨q0, hq0, rfl⟩ := hq1
            rw [getAtL_zero]
            exact hS.1 hr q0 hq0
          · simp only [List.mem_map] at hq2
            obtain ⟨q0, hq0, rfl⟩ := hq2
            obtain ⟨j, q1, rfl⟩ := atomPathsL_shape cs q0
              (by rw [hsplit]; exact List.mem_append_left _ hq0)
            simp only [bumpHead]
            rw [getAtL_bump]
            exact hl _ hq0
        · rw [getAtL_bump]
          exact hp
        · rw [setAtL_bump, hset]
          rfl
end

/-- C8: `replace_first(s, v)` returns `none` exactly when no atom of the
receiver equals `s`, and when it returns a new expression, that expression
is the receiver with the subterm at the first (pre-order, left-to-right)
atom position holding `s` replaced by `v` and every other node unchanged
(`setAt` at that position), all earlier pre-order atom positions holding
atoms different from `s`. -/
theorem replace_first_preorder_spec (e v : Sexp) (s : String) :
    (Sexp.replace_first s v e = none ↔
      ∀ p ∈ Sexp.atomPaths e, Sexp.getAt e p ≠ some (Sexp.atom s)) ∧
    ∀ e2, Sexp.replace_first s v e = some e2 →
      ∃ l p r, Sexp.atomPaths e = l ++ p :: r
        ∧ (∀ q ∈ l, Sexp.getAt e q ≠ some (Sexp.atom s))
        ∧ Sexp.getAt e p = some (Sexp.atom s)
        ∧ Sexp.setAt e p v = some e2 := by
  have h := replace_first_paths s v e
  refine ⟨⟨h.1, ?_⟩, h.2⟩
  intro hall
  cases hr : Sexp.replace_first s v e with
  | none => rfl
  | some e2 =>
    obtain ⟨l, p, r, hsplit, _, hp, _⟩ := h.2 e2 hr
    exact absurd hp (hall p (by rw [hsplit]; simp))
